import Mathlib

/-!
Verification development for `uvot_scattered_light.py` (uvot-mosaic).

Shallow embedding conventions:
* numpy 2-D float arrays are modelled as `Grid := List (List ℚ)`; machine
  floats become exact rationals, and elementwise float power
  `exp_param ** x` becomes an abstract parameter `pw : ℚ → ℚ → ℚ`
  (base first, exponent second), since no claim depends on its value.
* a numpy statement `a[fov] op= ...` (fancy-indexed in-place update, with
  `fov = np.where(sl_array > 0)` computed once from the original template)
  is modelled by `maskApply orig g f`, an elementwise update applied only at
  positions whose value in `orig` is positive.
* `a = a / s` rebinds the local name to a fresh array; hence the
  caller-visible final contents of the mutable template argument is the
  state just before the first rebinding, recorded in `CalcResult.sl_after`.
* numpy division by zero is a machine-float special value; in ℚ we use
  Lean's `x / 0 = 0` convention — no claim depends on the quotient at a
  zero divisor (the spec passes non-finite values through unchanged).
-/

/-- 2-D numeric array (row-major list of rows), modelling a numpy 2-D array
of floats as exact rationals. -/
abbrev Grid := List (List ℚ)

/-- Shape of a grid: the list of row lengths (a faithful stand-in for the
numpy `.shape` of a ragged-free 2-D array). -/
def gshape (g : Grid) : List ℕ := g.map List.length

/-- Elementwise map over a grid (numpy unary ufunc / scalar broadcast). -/
def gmap (f : ℚ → ℚ) (g : Grid) : Grid := g.map (fun r => r.map f)

/-- Elementwise binary operation over two same-shape grids
(numpy elementwise binary ufunc). -/
def gmap2 (f : ℚ → ℚ → ℚ) (a b : Grid) : Grid :=
  List.zipWith (List.zipWith f) a b

/-- `maskApply orig g f` : apply `f` at exactly the positions where `orig`
is positive, leave other positions of `g` unchanged.  This models the numpy
pattern `fov = np.where(orig > 0); g[fov] = f(g[fov])`. -/
def maskApply (orig g : Grid) (f : ℚ → ℚ) : Grid :=
  gmap2 (fun o v => if 0 < o then f v else v) orig g

/-- The multiset of values of `g` at FOV positions of `g` itself:
`g[np.where(g > 0)]`. -/
def fovVals (g : Grid) : List ℚ :=
  g.flatten.filter (fun v => decide (0 < v))

/-- The values of `g` at the positions where `orig` is positive:
`g[fov]` for `fov = np.where(orig > 0)` (same-shape `orig`, `g`). -/
def fovSelect (orig g : Grid) : List ℚ :=
  (((List.zipWith (List.zipWith Prod.mk) orig g).flatten.filter
      (fun p => decide (0 < p.1))).map Prod.snd)

/-- `np.min` of a list of values (0 on the empty list, which the spec rules
out as a caller precondition violation). -/
def listMin : List ℚ → ℚ
  | [] => 0
  | x :: xs => xs.foldl min x

/-- `np.mean` of a list of values (sum divided by count; `0/0 = 0` on the
empty list, which the spec rules out as a caller precondition violation). -/
def listMean (l : List ℚ) : ℚ := l.sum / (l.length : ℚ)

/-- Result of `calc_counts_image`: the returned image plus the
caller-visible final contents of the two array arguments (the source
mutates `sl_array` in place through its fancy-indexed assignments, then
rebinds the local name; `sk_array` is never assigned into). -/
structure CalcResult where
  new_image : Grid
  sk_after : Grid
  sl_after : Grid
  deriving DecidableEq, Repr

/-- `calc_counts_image(sk_array, sl_array, exp_param, flat_param)`
(uvot_scattered_light.py lines 331–355), statement by statement:
`fov = np.where(sl_array > 0)`;
`sl_array[fov] -= np.min(sl_array[fov])`;
`sl_array[fov] = exp_param ** sl_array[fov]`;
`sl_array = sl_array / np.mean(sl_array[fov])`  (rebinds: fresh array);
`m = np.mean(sl_array[fov])`; `sl_array -= m`; `sl_array *= flat_param`;
`sl_array += m`; `new_image = sk_array / sl_array`; `return new_image`.
The caller's template array last holds the value after the two in-place
fancy-indexed assignments (`sl_after`); the counts array is never written
(`sk_after`). -/
def calc_counts_image (pw : ℚ → ℚ → ℚ) (sk_array sl_array : Grid)
    (exp_param flat_param : ℚ) : CalcResult :=
  let mn := listMin (fovVals sl_array)
  let sl1 := maskApply sl_array sl_array (fun v => v - mn)
  let sl2 := maskApply sl_array sl1 (fun v => pw exp_param v)
  let mean1 := listMean (fovSelect sl_array sl2)
  let sl3 := gmap (fun v => v / mean1) sl2
  let m := listMean (fovSelect sl_array sl3)
  let sl4 := gmap (fun v => v - m) sl3
  let sl5 := gmap (fun v => v * flat_param) sl4
  let sl6 := gmap (fun v => v + m) sl5
  let new_image := gmap2 (fun a b => a / b) sk_array sl6
  ⟨new_image, sk_array, sl2⟩

/-- The SL transform as §4.1 of the spec words it, one formula per step:
FOV from positivity of the original template; at FOV positions the value
becomes `e` to the power of the min-shifted value; the whole array is
divided by the FOV mean; the whole array is flattened by
`m + f * (S - m)` with `m` the FOV mean after normalization; the result is
`C / S` elementwise over the full shape.  Refinement target for
`calc_counts_image`. -/
def calc_counts_image_spec (pw : ℚ → ℚ → ℚ) (C S : Grid) (e f : ℚ) : Grid :=
  let mn := listMin (fovVals S)
  let S2 := S.map (List.map (fun v => if 0 < v then pw e (v - mn) else v))
  let mu := listMean (fovSelect S S2)
  let S3 := gmap (fun v => v / mu) S2
  let m := listMean (fovSelect S S3)
  let S4 := gmap (fun v => m + f * (v - m)) S3
  gmap2 (fun c s => c / s) C S4

/-! ## Interactive fit loop (`run_manual`, lines 232–328)

Operator input is a Python string, modelled as `List Char`.  Only the
input-parsing and parameter-update logic of the loop is modelled: the
rendering calls have no effect on the returned parameters. -/

/-- The space character (named to keep character literals rare). -/
def spaceChar : Char := Char.ofNat 32

/-- The comma character. -/
def commaChar : Char := Char.ofNat 44

/-- The full-stop character. -/
def dotChar : Char := Char.ofNat 46

/-- The minus-sign character. -/
def minusChar : Char := Char.ofNat 45

/-- The plus-sign character. -/
def plusChar : Char := Char.ofNat 43

/-- Python `s.split(sep)` for a one-character separator `sep`: cut at every
occurrence, keeping empty pieces (so `"" → [""]`). -/
def splitCh (sep : Char) : List Char → List (List Char)
  | [] => [[]]
  | c :: cs =>
    match splitCh sep cs with
    | [] => if c = sep then [[], [c]] else [[c]]
    | t :: ts => if c = sep then [] :: t :: ts else (c :: t) :: ts

/-- Line 319: `[i for i in input_info.replace(',',' ').split(' ') if i != '']`
— normalize commas to spaces, split on single spaces, drop empty tokens. -/
def parseTokens (input : List Char) : List (List Char) :=
  (splitCh spaceChar
      (input.map (fun c => if c = commaChar then spaceChar else c))).filter
    (fun t => decide (t ≠ []))

/-- Value of a digit string read in base 10 (tokens are pre-checked to
consist of digits). -/
def digitsVal (l : List Char) : ℕ :=
  l.foldl (fun a c => 10 * a + (c.toNat - 48)) 0

/-- Unsigned part of Python's `float()` on the decimal-literal fragment:
digits, optionally followed by a full stop and further digits, at least one
digit overall; anything else fails (raises `ValueError`). -/
def parseUnsigned (s : List Char) : Option ℚ :=
  let intPart := s.takeWhile Char.isDigit
  let rest := s.dropWhile Char.isDigit
  match rest with
  | [] => if intPart.isEmpty then none else some (digitsVal intPart : ℚ)
  | c :: frac =>
    if c = dotChar ∧ frac.all Char.isDigit ∧ ¬(intPart.isEmpty ∧ frac.isEmpty)
    then some ((digitsVal intPart : ℚ) + (digitsVal frac : ℚ) / 10 ^ frac.length)
    else none

/-- Python `float(token)` on the decimal-literal fragment (optional sign,
then an unsigned decimal literal); `none` models a raised `ValueError`. -/
def pyFloat (s : List Char) : Option ℚ :=
  match s with
  | c :: rest =>
    if c = minusChar then (parseUnsigned rest).map Neg.neg
    else if c = plusChar then parseUnsigned rest
    else parseUnsigned s
  | [] => none

/-- Outcome of one pass through the bottom of the `while True` loop of
`run_manual` (lines 314–328) on one line of operator input. -/
inductive StepResult where
  /-- `break` out of the loop, returning the current parameters. -/
  | done (exp_param flat_param : ℚ)
  /-- loop again with these (possibly updated) parameters. -/
  | cont (exp_param flat_param : ℚ)
  /-- `float()` raised `ValueError`, propagating out of `run_manual`. -/
  | error
  deriving DecidableEq, Repr

/-- Input handling of one `run_manual` iteration (lines 318–324):
one token → `break`; two tokens → convert both with `float` and continue
(raising if either conversion fails); any other token count → fall through
to the next iteration with the parameters unchanged. -/
def run_manual_step (exp_param flat_param : ℚ) (input : List Char) :
    StepResult :=
  let p := parseTokens input
  if p.length = 1 then .done exp_param flat_param
  else if p.length = 2 then
    match pyFloat (p.getD 0 []), pyFloat (p.getD 1 []) with
    | some e, some f => .cont e f
    | _, _ => .error
  else .cont exp_param flat_param

/-- Observable outcome of the whole `while True` loop of `run_manual`
against a finite script of operator inputs. -/
inductive LoopOutcome where
  /-- the loop hit `break` and `run_manual` returned these parameters. -/
  | finished (exp_param flat_param : ℚ)
  /-- a `float()` conversion raised and the exception propagated. -/
  | raised
  /-- the script ran out while the loop was still waiting for input. -/
  | awaiting (exp_param flat_param : ℚ)
  deriving DecidableEq, Repr

/-- `run_manual(hdu_sk, hdu_sl, exp_param, flat_param)` (lines 232–328),
restricted to its parameter state machine: consume operator inputs one per
iteration until a single-token input breaks the loop or a conversion
raises.  The rendering of previews does not touch the parameters. -/
def run_manual (exp_param flat_param : ℚ) :
    List (List Char) → LoopOutcome
  | [] => .awaiting exp_param flat_param
  | s :: rest =>
    match run_manual_step exp_param flat_param s with
    | .done e f => .finished e f
    | .cont e f => run_manual e f rest
    | .error => .raised

/-! ## Parameter store and orchestrator (`sl_manual`, lines 168–228)

The astropy `Table` with columns `tstart, exp_param, flat_param` is a list
of rows; FITS I/O is out of scope (the spec's §1 treats it as an external
collaborator), so the orchestrator is modelled on the loaded table, the
list of extension start times, and the outcome of each interactive fit
(a function of the extension's `tstart` and the seed parameters).  Disk
writes of the table (line 218 / 224) are recorded in order in `writes`. -/

/-- One row of the parameter table. -/
structure Row where
  tstart : ℚ
  exp_param : ℚ
  flat_param : ℚ
  deriving DecidableEq, Repr

/-- The parameter table, in row order. -/
abbrev SLTable := List Row

/-- `tstart in sl_data['tstart']` (line 211/219): membership of a start
time in the table's `tstart` column. -/
def hasT (tbl : SLTable) (t : ℚ) : Bool :=
  tbl.any (fun r => decide (r.tstart = t))

/-- In-place update of the `exp_param`/`flat_param` cells of row `ind`
(lines 216–217), keeping `tstart` and every other row unchanged. -/
def setParams (tbl : SLTable) (ind : ℕ) (e f : ℚ) : SLTable :=
  match tbl[ind]? with
  | some r => tbl.set ind ⟨r.tstart, e, f⟩
  | none => tbl

/-- The spec's §4.2 `upsert(table, record)`: if `start_time` is present,
replace exp/flat in place at the first matching row; else append a new row,
preserving existing row order. -/
def upsert (tbl : SLTable) (r : Row) : SLTable :=
  if hasT tbl r.tstart then
    setParams tbl (tbl.findIdx (fun x => decide (x.tstart = r.tstart)))
      r.exp_param r.flat_param
  else tbl ++ [r]

/-- Orchestrator state: the in-memory table and the sequence of tables
written to `sl_file` so far (each `sl_data.write(..., overwrite=True)`
serializes the whole current table). -/
structure SLState where
  table : SLTable
  writes : List SLTable
  deriving DecidableEq, Repr

/-- The body of the per-extension loop of `sl_manual` (lines 202–227) for
one extension with start time `tstart`:
if `tstart in sl_data['tstart'] and fix_redo == True` → refit from the
stored parameters of the first matching row (`np.where(...)[0][0]`), store
the result in place, write the table;
elif `tstart not in sl_data['tstart']` → refit from the default seed
`(1.2, 0.4)`, append a row, write the table;
else → skip.
`fit t e f` abstracts `run_manual(hdu_sk[i], hdu_sl[i], e, f)` : the pair
the operator session returns when seeded with `(e, f)`. -/
def process_ext (fix_redo : Bool) (fit : ℚ → ℚ → ℚ → ℚ × ℚ)
    (st : SLState) (tstart : ℚ) : SLState :=
  if hasT st.table tstart && fix_redo then
    let ind := st.table.findIdx (fun r => decide (r.tstart = tstart))
    let seed := (st.table[ind]?).getD ⟨tstart, 0, 0⟩
    let p := fit tstart seed.exp_param seed.flat_param
    let tbl := setParams st.table ind p.1 p.2
    ⟨tbl, st.writes ++ [tbl]⟩
  else if !hasT st.table tstart then
    let p := fit tstart 1.2 0.4
    let tbl := st.table ++ [⟨tstart, p.1, p.2⟩]
    ⟨tbl, st.writes ++ [tbl]⟩
  else st

/-- The per-extension loop of `sl_manual` from a given state, over the
start times of extensions `1..n` in order. -/
def sl_manual_from (fix_redo : Bool) (fit : ℚ → ℚ → ℚ → ℚ × ℚ)
    (st : SLState) (exts : List ℚ) : SLState :=
  exts.foldl (process_ext fix_redo fit) st

/-- `sl_manual(sk_image, sl_image, sl_file, fix_redo)` on the loaded (or
freshly initialized, line 193–197) table `init`: process every extension
in order, starting with no writes performed. -/
def sl_manual (fix_redo : Bool) (fit : ℚ → ℚ → ℚ → ℚ × ℚ)
    (init : SLTable) (exts : List ℚ) : SLState :=
  sl_manual_from fix_redo fit ⟨init, []⟩ exts

/-- The fit outcome produced by running the interactive loop on a fixed
operator script: the parameters `run_manual` returns (the seed itself if
the script leaves the loop without an update). -/
def scriptFit (script : List (List Char)) (_t e f : ℚ) : ℚ × ℚ :=
  match run_manual e f script with
  | .finished e2 f2 => (e2, f2)
  | .awaiting e2 f2 => (e2, f2)
  | .raised => (e, f)

/-! ## Batch apply (`sl_apply`, lines 119–164) -/

/-- `b.startswith(pat)` on character lists: `pat` is an initial segment. -/
def startsWith : List Char → List Char → Bool
  | [], _ => true
  | _ :: _, [] => false
  | p :: ps, c :: cs => p == c && startsWith ps cs

/-- Python `s.replace(pat, rep)` for a nonempty `pat`: replace every
non-overlapping occurrence, scanning left to right.  (Python's behaviour
for an empty pattern is not needed here: the only pattern used is the
literal `'_corr.img'`.) -/
def replaceAll (pat rep : List Char) : List Char → List Char
  | [] => []
  | c :: rest =>
    if !pat.isEmpty && startsWith pat (c :: rest) then
      rep ++ replaceAll pat rep (rest.drop (pat.length - 1))
    else c :: replaceAll pat rep rest
termination_by s => s.length
decreasing_by
  · simp only [List.length_drop, List.length_cons]
    omega
  · simp only [List.length_cons]
    omega

/-- The literal `'_corr.img'` of line 164. -/
def corrSuffix : List Char := "_corr.img".toList

/-- The literal `'_corr_sl.img'` of line 164. -/
def corrSlSuffix : List Char := "_corr_sl.img".toList

/-- One extension of a multi-extension FITS stack: per-extension header
(abstract, of any type `α`) and image data. -/
structure HduExt (α : Type) where
  header : α
  data : Grid
  deriving DecidableEq, Repr

/-- The observable output of `sl_apply`: the assembled `hdu_new` stack and
the single `writeto(filename, overwrite=True)` call. -/
structure ApplyOutput (α : Type) where
  stack : List (HduExt α)
  filename : List Char
  overwrite : Bool
  deriving DecidableEq, Repr

/-- The loop of lines 153–161: for each counts extension in order, correct
it with the positionally corresponding template extension and parameter
row, keeping the counts extension's header.  Running out of template
extensions or parameter rows while counts extensions remain models the
`IndexError` a short `hdu_sl` or `sl_data` would raise (`none`). -/
def applyExts {α : Type} (pw : ℚ → ℚ → ℚ) :
    List (HduExt α) → List (HduExt α) → SLTable → Option (List (HduExt α))
  | [], _, _ => some []
  | sk :: sks, sl :: sls, row :: rows =>
    (applyExts pw sks sls rows).map
      (fun tl =>
        ⟨sk.header,
          (calc_counts_image pw sk.data sl.data row.exp_param
            row.flat_param).new_image⟩ :: tl)
  | _ :: _, [], _ => none
  | _ :: _, _, [] => none

/-- `sl_apply(sk_image, sl_image, sl_file)` (lines 119–164) on the loaded
stacks and parameter table: the new stack starts with an extension
mirroring the first counts extension's data and header (line 151), gets one
corrected extension per further counts extension (parameter row `i-1` for
extension `i`, by position), and is written to
`sk_image.replace('_corr.img', '_corr_sl.img')` with `overwrite=True`.  An
empty counts stack models the `IndexError` of `hdu_sk[0]` (`none`). -/
def sl_apply {α : Type} (pw : ℚ → ℚ → ℚ) (sk_image : List Char)
    (hdu_sk hdu_sl : List (HduExt α)) (sl_data : SLTable) :
    Option (ApplyOutput α) :=
  match hdu_sk with
  | [] => none
  | sk0 :: sks =>
    (applyExts pw sks (hdu_sl.drop 1) sl_data).map
      (fun entries =>
        ⟨⟨sk0.header, sk0.data⟩ :: entries,
          replaceAll corrSuffix corrSlSuffix sk_image,
          true⟩)

/-! ## Lemmas and claim theorems -/

/-- Two successive fancy-indexed in-place updates with the same positivity
mask, at the row level. -/
lemma zipWith_mask_two_pass (f1 f2 : ℚ → ℚ) (r : List ℚ) :
    List.zipWith (fun o v => if 0 < o then f2 v else v) r
      (List.zipWith (fun o v => if 0 < o then f1 v else v) r r) =
      r.map (fun v => if 0 < v then f2 (f1 v) else v) := by
  induction r with
  | nil => rfl
  | cons a t ih =>
      simp only [List.zipWith_cons_cons, List.map_cons, ih]
      congr 1
      by_cases h : 0 < a <;> simp [h]

/-- Two successive fancy-indexed in-place updates with the same positivity
mask collapse to a single masked elementwise map. -/
lemma maskApply_two_pass (f1 f2 : ℚ → ℚ) (g : Grid) :
    maskApply g (maskApply g g f1) f2 =
      g.map (List.map (fun v => if 0 < v then f2 (f1 v) else v)) := by
  induction g with
  | nil => rfl
  | cons r t ih =>
      simp only [maskApply, gmap2, List.zipWith_cons_cons, List.map_cons] at *
      exact congrArg₂ List.cons (zipWith_mask_two_pass f1 f2 r) ih

/-- Fusion of two elementwise maps over a grid. -/
lemma gmap_gmap (f g : ℚ → ℚ) (x : Grid) :
    gmap f (gmap g x) = gmap (fun v => f (g v)) x := by
  simp [gmap, List.map_map, Function.comp_def]

/-- Pointwise-equal functions give equal elementwise maps. -/
lemma gmap_congr {f g : ℚ → ℚ} (h : ∀ v, f v = g v) (x : Grid) :
    gmap f x = gmap g x := by
  have : f = g := funext h
  rw [this]

/-- Elementwise maps preserve the shape of a grid. -/
lemma gshape_gmap (f : ℚ → ℚ) (g : Grid) : gshape (gmap f g) = gshape g := by
  simp [gshape, gmap, List.map_map, Function.comp_def]

/-- An elementwise binary operation on two same-shape grids has the shape of
its first argument. -/
lemma gshape_gmap2 (f : ℚ → ℚ → ℚ) :
    ∀ (a b : Grid), gshape a = gshape b → gshape (gmap2 f a b) = gshape a := by
  intro a
  induction a with
  | nil => intro b _; rfl
  | cons r t ih =>
      intro b h
      cases b with
      | nil => simp [gshape] at h
      | cons s u =>
          simp only [gshape, List.map_cons, List.cons.injEq] at h
          simp only [gmap2, List.zipWith_cons_cons, gshape, List.map_cons,
            List.length_zipWith, h.1, Nat.min_self, List.cons.injEq]
          exact ⟨trivial, ih u h.2⟩

/-- C1: For every counts array `C`, template array `S`, and scalars `e`, `f`,
`calc_counts_image` returns exactly the array described by the spec's steps:
FOV from positivity of `S`; subtract `min(S[FOV])` at FOV; exponentiate the
shifted values at FOV; divide all of `S` by `mean(S[FOV])`; flatten the whole
array by `m + f * (S - m)` with `m` the post-normalization FOV mean
(implemented as subtract, scale, add); return `C / S` elementwise. -/
theorem calc_counts_image_refines_spec (pw : ℚ → ℚ → ℚ) (C S : Grid)
    (e f : ℚ) :
    (calc_counts_image pw C S e f).new_image = calc_counts_image_spec pw C S e f := by
  simp only [calc_counts_image, calc_counts_image_spec, maskApply_two_pass,
    gmap_gmap]
  congr 1
  exact gmap_congr (fun v => by ring) _

/-- C6: the output array of `calc_counts_image` has exactly the shape of the
counts array, for any template array of the same shape and any parameters. -/
theorem calc_counts_image_shape (pw : ℚ → ℚ → ℚ) (C S : Grid) (e f : ℚ)
    (h : gshape S = gshape C) :
    gshape (calc_counts_image pw C S e f).new_image = gshape C := by
  simp only [calc_counts_image]
  apply gshape_gmap2
  simp only [gshape_gmap, maskApply]
  rw [gshape_gmap2 _ _ _ (gshape_gmap2 _ S S rfl).symm]
  exact h.symm

/-- C8: `calc_counts_image` never mutates its counts input `sk_array`; the
caller's counts array holds its original values after the call. -/
theorem calc_counts_image_preserves_sk (pw : ℚ → ℚ → ℚ) (sk sl : Grid)
    (e f : ℚ) :
    (calc_counts_image pw sk sl e f).sk_after = sk := rfl

/-- C9: `calc_counts_image` is deterministic — two calls on identical inputs
(the template being reset between the calls) return identical results. -/
theorem calc_counts_image_deterministic (pw : ℚ → ℚ → ℚ)
    (sk1 sl1 sk2 sl2 : Grid) (e1 f1 e2 f2 : ℚ)
    (hsk : sk1 = sk2) (hsl : sl1 = sl2) (he : e1 = e2) (hf : f1 = f2) :
    calc_counts_image pw sk1 sl1 e1 f1 = calc_counts_image pw sk2 sl2 e2 f2 := by
  subst hsk hsl he hf
  rfl

/-- C9 witness: the determinism theorem applied at a concrete input. -/
theorem calc_counts_image_deterministic_witness :
    calc_counts_image (fun a b => a * b) [[4]] [[2]] 2 1 =
      calc_counts_image (fun a b => a * b) [[4]] [[2]] 2 1 :=
  calc_counts_image_deterministic (fun a b => a * b) [[4]] [[2]] [[4]] [[2]]
    2 1 2 1 rfl rfl rfl rfl

/-- C10: the caller-visible mutation of the template array is confined to
the FOV positions: afterwards a non-positive original entry is unchanged and
a positive original entry holds the exponentiated min-shifted value — the
normalization and flatten steps happen on a fresh array. -/
theorem calc_counts_image_sl_mutation_confined (pw : ℚ → ℚ → ℚ)
    (sk sl : Grid) (e f : ℚ) :
    (calc_counts_image pw sk sl e f).sl_after =
      sl.map (List.map
        (fun v => if 0 < v then pw e (v - listMin (fovVals sl)) else v)) := by
  simp only [calc_counts_image]
  exact maskApply_two_pass _ _ sl

/-- C2 counterexample: the operator input `"a b"` parses to two tokens,
neither of which is numeric — so it yields neither one nor two numeric
tokens — yet `run_manual` does not continue with unchanged parameters: the
`float` conversion raises (line 323), modelled by `.error`. -/
theorem run_manual_malformed_raises_cex :
    (parseTokens ("a b".toList)).length = 2 ∧
    pyFloat ("a".toList) = none ∧ pyFloat ("b".toList) = none ∧
    run_manual_step 1 2 ("a b".toList) = .error ∧
    run_manual_step 1 2 ("a b".toList) ≠ .cont 1 2 := by
  decide

/-- C2 amended: operator input parsing to a token count other than one or
two makes the loop continue with unchanged parameters and no exception;
but input parsing to exactly two tokens of which either fails numeric
conversion raises (propagates out of the loop) instead of being tolerated. -/
theorem run_manual_input_handling :
    (∀ (e f : ℚ) (s : List Char),
        (parseTokens s).length ≠ 1 → (parseTokens s).length ≠ 2 →
        run_manual_step e f s = .cont e f) ∧
    (∀ (e f : ℚ) (s t1 t2 : List Char),
        parseTokens s = [t1, t2] →
        (pyFloat t1 = none ∨ pyFloat t2 = none) →
        run_manual_step e f s = .error) := by
  constructor
  · intro e f s h1 h2
    simp [run_manual_step, h1, h2]
  · intro e f s t1 t2 hp hn
    simp only [run_manual_step, hp]
    rcases hn with h | h
    · simp [h]
    · cases hx : pyFloat t1 <;> simp [hx, h]

/-- C2 amended witness: a three-token input continues unchanged; a
two-token non-numeric input raises. -/
theorem run_manual_input_handling_witness :
    run_manual_step 1 2 ("x y z".toList) = .cont 1 2 ∧
    run_manual_step 1 2 ("a b".toList) = .error :=
  ⟨run_manual_input_handling.1 1 2 ("x y z".toList) (by decide) (by decide),
   run_manual_input_handling.2 1 2 ("a b".toList) ("a".toList) ("b".toList)
     (by decide) (Or.inl (by decide))⟩

/-- Setting an index of a list to the element already there is a no-op. -/
lemma set_self_of_getElem? {α : Type} :
    ∀ (l : List α) (i : ℕ) (r : α), l[i]? = some r → l.set i r = l := by
  intro l
  induction l with
  | nil => intro i r h; simp at h
  | cons a t ih =>
      intro i r h
      cases i with
      | zero => simp_all
      | succ n =>
          simp only [List.getElem?_cons_succ] at h
          simp [List.set, ih n r h]

/-- A present `tstart` makes `np.where(tstart == sl_data['tstart'])[0][0]`
a valid row index (the first match). -/
lemma findIdx_lt_of_hasT {tbl : SLTable} {t : ℚ} (h : hasT tbl t = true) :
    tbl.findIdx (fun x => decide (x.tstart = t)) < tbl.length := by
  apply List.findIdx_lt_length_of_exists
  simpa [hasT, List.any_eq_true] using h

/-- The row at the first matching index has the looked-up `tstart`. -/
lemma findIdx_row_tstart {tbl : SLTable} {t : ℚ} {r : Row}
    (h : hasT tbl t = true)
    (hr : tbl[tbl.findIdx (fun x => decide (x.tstart = t))]? = some r) :
    r.tstart = t := by
  have hlt := findIdx_lt_of_hasT h
  have :
      (fun x => decide (x.tstart = t))
        (tbl.get ⟨tbl.findIdx (fun x => decide (x.tstart = t)), hlt⟩) = true :=
    @List.findIdx_getElem _ _ _ hlt
  rw [List.getElem?_eq_getElem hlt] at hr
  cases hr
  exact of_decide_eq_true this

/-- The refit-with-redo branch of the per-extension loop, in closed form:
the first matching row's parameters seed the fit, the row is updated in
place, and the updated table is written. -/
lemma process_ext_redo (fit : ℚ → ℚ → ℚ → ℚ × ℚ) (st : SLState) (t : ℚ)
    (r : Row) (h1 : hasT st.table t = true)
    (hr : st.table[st.table.findIdx (fun x => decide (x.tstart = t))]? = some r) :
    process_ext true fit st t =
      ⟨st.table.set (st.table.findIdx (fun x => decide (x.tstart = t)))
          ⟨r.tstart, (fit t r.exp_param r.flat_param).1,
            (fit t r.exp_param r.flat_param).2⟩,
        st.writes ++
          [st.table.set (st.table.findIdx (fun x => decide (x.tstart = t)))
            ⟨r.tstart, (fit t r.exp_param r.flat_param).1,
              (fit t r.exp_param r.flat_param).2⟩]⟩ := by
  simp [process_ext, h1, setParams, hr]

/-- C3: if an extension's start time is already in the table and redo is
not requested, `sl_manual` skips it — the state (table, including the
record for that start time, and the sequence of file writes) is returned
unchanged, for every possible fit-loop behaviour (so the fit loop is not
consulted); if the start time is absent, a fit is run seeded with the
default parameters `(1.2, 0.4)` and its result appended and written. -/
theorem sl_manual_skip_and_default_seed (fix_redo : Bool)
    (fit : ℚ → ℚ → ℚ → ℚ × ℚ) (st : SLState) (t : ℚ) :
    (hasT st.table t = true → fix_redo = false →
      process_ext fix_redo fit st t = st) ∧
    (hasT st.table t = false →
      process_ext fix_redo fit st t =
        ⟨st.table ++ [⟨t, (fit t 1.2 0.4).1, (fit t 1.2 0.4).2⟩],
          st.writes ++
            [st.table ++ [⟨t, (fit t 1.2 0.4).1, (fit t 1.2 0.4).2⟩]]⟩) := by
  constructor
  · intro h1 h2
    simp [process_ext, h1, h2]
  · intro h1
    simp [process_ext, h1]

/-- C3 witness: on the table `[(1, 2, 3)]` with redo off, start time 1 is
skipped with the state unchanged, and start time 4 is fitted from the
default seed `(1.2, 0.4)` and appended and written. -/
theorem sl_manual_skip_and_default_seed_witness :
    process_ext false (fun _ e f => (e, f)) ⟨[⟨1, 2, 3⟩], []⟩ 1 =
      ⟨[⟨1, 2, 3⟩], []⟩ ∧
    process_ext false (fun _ e f => (e, f)) ⟨[⟨1, 2, 3⟩], []⟩ 4 =
      ⟨[⟨1, 2, 3⟩, ⟨4, 1.2, 0.4⟩], [[⟨1, 2, 3⟩, ⟨4, 1.2, 0.4⟩]]⟩ :=
  ⟨(sl_manual_skip_and_default_seed false (fun _ e f => (e, f))
      ⟨[⟨1, 2, 3⟩], []⟩ 1).1 (by decide) rfl,
    (sl_manual_skip_and_default_seed false (fun _ e f => (e, f))
      ⟨[⟨1, 2, 3⟩], []⟩ 4).2 (by decide)⟩

/-- A single extension step only ever appends to the sequence of writes. -/
lemma process_ext_writes_mono (fix_redo : Bool) (fit : ℚ → ℚ → ℚ → ℚ × ℚ)
    (st : SLState) (t : ℚ) :
    ∃ u, (process_ext fix_redo fit st t).writes = st.writes ++ u := by
  simp only [process_ext]
  split
  · exact ⟨_, rfl⟩
  · split
    · exact ⟨_, rfl⟩
    · exact ⟨[], (List.append_nil _).symm⟩

/-- Processing any tail of extensions only appends to the writes performed
so far: a write saved for one extension happens before (and survives) the
processing of the following extensions. -/
lemma sl_manual_from_writes_mono (fix_redo : Bool)
    (fit : ℚ → ℚ → ℚ → ℚ × ℚ) :
    ∀ (exts : List ℚ) (st : SLState),
      ∃ u, (sl_manual_from fix_redo fit st exts).writes = st.writes ++ u := by
  intro exts
  induction exts with
  | nil => exact fun st => ⟨[], (List.append_nil _).symm⟩
  | cons t ts ih =>
      intro st
      obtain ⟨u1, hu1⟩ := process_ext_writes_mono fix_redo fit st t
      obtain ⟨u2, hu2⟩ := ih (process_ext fix_redo fit st t)
      refine ⟨u1 ++ u2, ?_⟩
      have : sl_manual_from fix_redo fit st (t :: ts) =
          sl_manual_from fix_redo fit (process_ext fix_redo fit st t) ts := rfl
      rw [this, hu2, hu1, List.append_assoc]

/-- C5: after every refit the resulting record is upserted — with the start
time present, exp/flat are replaced in place at the first matching row,
preserving length, the other rows, and the row's start time; with it
absent, a new row is appended after all existing rows — and the whole
updated table is written to disk immediately, before the next extension is
processed (the remaining extensions are processed from the post-write
state). -/
theorem sl_manual_upsert_and_save (fix_redo : Bool)
    (fit : ℚ → ℚ → ℚ → ℚ × ℚ) (st : SLState) (t : ℚ) (ts : List ℚ) :
    (∀ r : Row, hasT st.table t = true → fix_redo = true →
        st.table[st.table.findIdx (fun x => decide (x.tstart = t))]? = some r →
        (process_ext fix_redo fit st t).table =
            upsert st.table
              ⟨t, (fit t r.exp_param r.flat_param).1,
                (fit t r.exp_param r.flat_param).2⟩ ∧
          (process_ext fix_redo fit st t).table.length = st.table.length ∧
          (∀ j, j ≠ st.table.findIdx (fun x => decide (x.tstart = t)) →
            (process_ext fix_redo fit st t).table[j]? = st.table[j]?) ∧
          (process_ext fix_redo fit st t).table[st.table.findIdx
              (fun x => decide (x.tstart = t))]? =
            some ⟨r.tstart, (fit t r.exp_param r.flat_param).1,
              (fit t r.exp_param r.flat_param).2⟩ ∧
          (process_ext fix_redo fit st t).writes =
            st.writes ++ [(process_ext fix_redo fit st t).table]) ∧
    (hasT st.table t = false →
        (process_ext fix_redo fit st t).table =
            upsert st.table ⟨t, (fit t 1.2 0.4).1, (fit t 1.2 0.4).2⟩ ∧
          (process_ext fix_redo fit st t).table =
            st.table ++ [⟨t, (fit t 1.2 0.4).1, (fit t 1.2 0.4).2⟩] ∧
          (process_ext fix_redo fit st t).writes =
            st.writes ++ [(process_ext fix_redo fit st t).table]) ∧
    sl_manual_from fix_redo fit st (t :: ts) =
      sl_manual_from fix_redo fit (process_ext fix_redo fit st t) ts := by
  refine ⟨?_, ?_, rfl⟩
  · intro r h1 h2 hr
    subst h2
    have hlt := findIdx_lt_of_hasT h1
    rw [process_ext_redo fit st t r h1 hr]
    refine ⟨?_, ?_, ?_, ?_, rfl⟩
    · simp only [upsert, h1, if_pos, setParams, hr]
    · simp [List.length_set]
    · intro j hj
      simp only
      rw [List.getElem?_set_ne (Ne.symm hj)]
    · simp only
      rw [List.getElem?_set_self]
      exact hlt
  · intro h1
    have hp : process_ext fix_redo fit st t =
        ⟨st.table ++ [⟨t, (fit t 1.2 0.4).1, (fit t 1.2 0.4).2⟩],
          st.writes ++
            [st.table ++ [⟨t, (fit t 1.2 0.4).1, (fit t 1.2 0.4).2⟩]]⟩ := by
      simp [process_ext, h1]
    rw [hp]
    exact ⟨by simp [upsert, h1], rfl, rfl⟩

/-- C5 witness: the upsert-and-save theorem applied to the one-row table
`[(1, 2, 3)]` with the parameter-swapping fit, at a present start time
(redo), at an absent start time, and as the head step of a fold. -/
theorem sl_manual_upsert_and_save_witness :
    (process_ext true (fun _ e f => (f, e)) ⟨[⟨1, 2, 3⟩], []⟩ 1).table =
        upsert [⟨1, 2, 3⟩] ⟨1, 3, 2⟩ ∧
    (process_ext true (fun _ e f => (f, e)) ⟨[⟨1, 2, 3⟩], []⟩ 1).table.length
        = 1 ∧
    (∀ j, j ≠ 0 →
      (process_ext true (fun _ e f => (f, e)) ⟨[⟨1, 2, 3⟩], []⟩ 1).table[j]? =
        [(⟨1, 2, 3⟩ : Row)][j]?) ∧
    (process_ext true (fun _ e f => (f, e)) ⟨[⟨1, 2, 3⟩], []⟩ 1).table[0]? =
        some ⟨1, 3, 2⟩ ∧
    (process_ext true (fun _ e f => (f, e)) ⟨[⟨1, 2, 3⟩], []⟩ 1).writes =
        [] ++ [(process_ext true (fun _ e f => (f, e)) ⟨[⟨1, 2, 3⟩], []⟩ 1).table] ∧
    (process_ext false (fun _ e f => (f, e)) ⟨[⟨1, 2, 3⟩], []⟩ 4).table =
        [⟨1, 2, 3⟩] ++ [⟨4, 0.4, 1.2⟩] ∧
    sl_manual_from true (fun _ e f => (f, e)) ⟨[⟨1, 2, 3⟩], []⟩ [1] =
      sl_manual_from true (fun _ e f => (f, e))
        (process_ext true (fun _ e f => (f, e)) ⟨[⟨1, 2, 3⟩], []⟩ 1) [] := by
  obtain ⟨h1, _, h3⟩ :=
    sl_manual_upsert_and_save true (fun _ e f => (f, e)) ⟨[⟨1, 2, 3⟩], []⟩ 1 []
  obtain ⟨a1, a2, a3, a4, a5⟩ := h1 ⟨1, 2, 3⟩ (by decide) rfl (by decide)
  obtain ⟨_, b2, _⟩ :=
    (sl_manual_upsert_and_save false (fun _ e f => (f, e))
      ⟨[⟨1, 2, 3⟩], []⟩ 4 []).2.1 (by decide)
  exact ⟨a1, a2, fun j hj => a3 j hj, a4, a5, b2, h3⟩

/-- C7: with redo requested and the start time present, the fit loop is
seeded with the first matching row's stored parameters; if the operator
terminates immediately with a single-token input, `run_manual` returns the
seed itself and the subsequent in-place upsert leaves the table equal to
what it was (the write still happens, re-serializing the unchanged
table). -/
theorem sl_manual_redo_identity (st : SLState) (t : ℚ) (s : List Char)
    (r : Row) (hs : (parseTokens s).length = 1)
    (h1 : hasT st.table t = true)
    (hr : st.table[st.table.findIdx (fun x => decide (x.tstart = t))]? = some r) :
    run_manual r.exp_param r.flat_param [s] =
        .finished r.exp_param r.flat_param ∧
    process_ext true (scriptFit [s]) st t = ⟨st.table, st.writes ++ [st.table]⟩ := by
  have hrun : run_manual r.exp_param r.flat_param [s] =
      .finished r.exp_param r.flat_param := by
    simp [run_manual, run_manual_step, hs]
  refine ⟨hrun, ?_⟩
  rw [process_ext_redo (scriptFit [s]) st t r h1 hr]
  have hfit : scriptFit [s] t r.exp_param r.flat_param =
      (r.exp_param, r.flat_param) := by
    simp [scriptFit, hrun]
  rw [hfit]
  have hrow : (⟨r.tstart, r.exp_param, r.flat_param⟩ : Row) = r := rfl
  rw [hrow, set_self_of_getElem? st.table _ r hr]

/-- C7 witness: on the table `[(1, 2, 3)]`, a redo of start time 1 with the
operator immediately entering the single token `q` leaves the table
unchanged (and re-writes it). -/
theorem sl_manual_redo_identity_witness :
    run_manual 2 3 ["q".toList] = .finished 2 3 ∧
    process_ext true (scriptFit ["q".toList]) ⟨[⟨1, 2, 3⟩], []⟩ 1 =
      ⟨[⟨1, 2, 3⟩], [[⟨1, 2, 3⟩]]⟩ :=
  sl_manual_redo_identity ⟨[⟨1, 2, 3⟩], []⟩ 1 ("q".toList) ⟨1, 2, 3⟩
    (by decide) (by decide) (by decide)

/-- Every list starts with itself. -/
lemma startsWith_refl : ∀ l : List Char, startsWith l l = true := by
  intro l
  induction l with
  | nil => rfl
  | cons c cs ih => simp [startsWith, ih]

/-- On a string of the form `stem ++ pat` whose only occurrence of `pat`
is the final one, replace-all rewrites exactly the suffix. -/
lemma replaceAll_append_pat (pat rep : List Char) (hpat : pat ≠ []) :
    ∀ stem : List Char,
      (∀ i, i < stem.length → startsWith pat ((stem ++ pat).drop i) = false) →
      replaceAll pat rep (stem ++ pat) = stem ++ rep := by
  intro stem
  induction stem with
  | nil =>
      intro _
      cases pat with
      | nil => exact absurd rfl hpat
      | cons c cs =>
          simp [replaceAll, startsWith_refl, List.drop_length]
  | cons c st ih =>
      intro h
      have h0 : startsWith pat (c :: (st ++ pat)) = false := by
        simpa using h 0 (by simp)
      have hrest : ∀ i, i < st.length →
          startsWith pat ((st ++ pat).drop i) = false := by
        intro i hi
        have := h (i + 1) (by simp only [List.length_cons]; omega)
        simpa using this
      simp only [List.cons_append, replaceAll, h0, Bool.and_false, if_neg,
        Bool.not_eq_true']
      simp [ih hrest]

/-- Closed form of the correction loop when the template stack and the
parameter table are long enough: it succeeds and produces, positionally,
the corrected image of each counts extension under its own header. -/
lemma applyExts_spec {α : Type} (pw : ℚ → ℚ → ℚ) :
    ∀ (sks sls : List (HduExt α)) (rows : SLTable),
      sks.length ≤ sls.length → sks.length ≤ rows.length →
      ∃ l, applyExts pw sks sls rows = some l ∧ l.length = sks.length ∧
        ∀ (i : ℕ) (ske sle : HduExt α) (rowe : Row),
          sks[i]? = some ske → sls[i]? = some sle → rows[i]? = some rowe →
          l[i]? = some ⟨ske.header,
            (calc_counts_image pw ske.data sle.data rowe.exp_param
              rowe.flat_param).new_image⟩ := by
  intro sks
  induction sks with
  | nil =>
      intro sls rows _ _
      refine ⟨[], rfl, rfl, ?_⟩
      intro i ske sle rowe hi _ _
      simp at hi
  | cons sk sks2 ih =>
      intro sls rows h1 h2
      cases sls with
      | nil => simp at h1
      | cons sl sls2 =>
          cases rows with
          | nil => simp at h2
          | cons row rows2 =>
              obtain ⟨l, hl, hlen, hget⟩ := ih sls2 rows2
                (by simpa using h1) (by simpa using h2)
              refine ⟨⟨sk.header,
                  (calc_counts_image pw sk.data sl.data row.exp_param
                    row.flat_param).new_image⟩ :: l, ?_, by simp [hlen], ?_⟩
              · simp [applyExts, hl]
              · intro i ske sle rowe hai hbi hci
                cases i with
                | zero =>
                    simp only [List.getElem?_cons_zero, Option.some.injEq]
                      at hai hbi hci
                    subst hai hbi hci
                    simp
                | succ n =>
                    simp only [List.getElem?_cons_succ] at hai hbi hci ⊢
                    exact hget n ske sle rowe hai hbi hci

/-- C4: for a counts stack with `n` extensions beyond the first (template
stack and parameter table at least as long), `sl_apply` succeeds, its first
output entry mirrors the first counts extension's data and header, its
entry `i+1` holds the corrected array of counts extension `i+1` computed
with parameter row `i` by position under that extension's original header,
and the stack is written with `overwrite=True` to the name obtained from a
counts filename ending in `'_corr.img'` (with no earlier occurrence of
that suffix pattern) by replacing that suffix with `'_corr_sl.img'`. -/
theorem sl_apply_positional {α : Type} (pw : ℚ → ℚ → ℚ) (stem : List Char)
    (sk0 sl0 : HduExt α) (sks sls : List (HduExt α)) (rows : SLTable)
    (h1 : sks.length ≤ sls.length) (h2 : sks.length ≤ rows.length)
    (hocc : ∀ i, i < stem.length →
      startsWith corrSuffix ((stem ++ corrSuffix).drop i) = false) :
    ∃ out : ApplyOutput α,
      sl_apply pw (stem ++ corrSuffix) (sk0 :: sks) (sl0 :: sls) rows =
          some out ∧
        out.overwrite = true ∧
        out.filename = stem ++ corrSlSuffix ∧
        out.stack.length = sks.length + 1 ∧
        out.stack[0]? = some ⟨sk0.header, sk0.data⟩ ∧
        ∀ (i : ℕ) (ske sle : HduExt α) (rowe : Row),
          sks[i]? = some ske → sls[i]? = some sle → rows[i]? = some rowe →
          out.stack[i + 1]? = some ⟨ske.header,
            (calc_counts_image pw ske.data sle.data rowe.exp_param
              rowe.flat_param).new_image⟩ := by
  obtain ⟨l, hl, hlen, hget⟩ := applyExts_spec pw sks sls rows h1 h2
  refine ⟨⟨⟨sk0.header, sk0.data⟩ :: l,
      replaceAll corrSuffix corrSlSuffix (stem ++ corrSuffix), true⟩,
    ?_, rfl, ?_, ?_, by simp, ?_⟩
  · simp [sl_apply, hl]
  · exact replaceAll_append_pat corrSuffix corrSlSuffix (by decide) stem hocc
  · simp [hlen]
  · intro i ske sle rowe ha hb hc
    simpa using hget i ske sle rowe ha hb hc

/-- C4 witness: a two-extension stack with a one-row table, applied and
written to `x_corr_sl.img`. -/
theorem sl_apply_positional_witness :
    ∃ out : ApplyOutput ℕ,
      sl_apply (fun _ b => b) ("x".toList ++ corrSuffix)
          [⟨0, []⟩, ⟨2, [[4]]⟩] [⟨9, []⟩, ⟨3, [[2]]⟩] [⟨0, 2, 1⟩] =
          some out ∧
        out.overwrite = true ∧
        out.filename = "x".toList ++ corrSlSuffix ∧
        out.stack.length = 1 + 1 ∧
        out.stack[0]? = some ⟨0, []⟩ ∧
        ∀ (i : ℕ) (ske sle : HduExt ℕ) (rowe : Row),
          [(⟨2, [[4]]⟩ : HduExt ℕ)][i]? = some ske →
          [(⟨3, [[2]]⟩ : HduExt ℕ)][i]? = some sle →
          [(⟨0, 2, 1⟩ : Row)][i]? = some rowe →
          out.stack[i + 1]? = some ⟨ske.header,
            (calc_counts_image (fun _ b => b) ske.data sle.data
              rowe.exp_param rowe.flat_param).new_image⟩ :=
  sl_apply_positional (fun _ b => b) ("x".toList) ⟨0, []⟩ ⟨9, []⟩
    [⟨2, [[4]]⟩] [⟨3, [[2]]⟩] [⟨0, 2, 1⟩] (by decide) (by decide) (by decide)

/-- C6 witness: the shape-preservation theorem applied to a concrete 1×2
counts image and same-shape template. -/
theorem calc_counts_image_shape_witness :
    gshape (calc_counts_image (fun a b => a * b) [[1, 2]] [[3, 4]] 2
        1).new_image = gshape [[1, 2]] :=
  calc_counts_image_shape (fun a b => a * b) [[1, 2]] [[3, 4]] 2 1 (by decide)
